import Mathlib

/-!
Shallow embedding of the constraint-trace core of the nexus-zkvm prover:
the ADD/ADDI chip (`src/prover/src/machine2/chips/add.rs`), the trace
table (`src/prover/src/trace/mod.rs`) and the row evaluator
(`src/prover/src/trace/eval.rs`), together with proofs of the spec claims.
-/

namespace NexusZkvm

/-- The prime field `BaseField = M31`, of order `2^31 - 1`. -/
abbrev F : Type := ZMod 2147483647

/-- `WORD_SIZE = 4` bytes per machine word (from `nexus_vm::WORD_SIZE`). -/
def WORD_SIZE : Nat := 4

/-!  ## Column schema

Modelled from the spec: the `Column` enum of `machine2/column.rs` is not
among the provided sources; the spec's §3 lists the main-schema groups
required for the ADD core with their widths, and `offset` as the prefix
sum of the declared widths in order.
-/

/-- Modelled from the spec: main-schema column groups required by the ADD
core, in declaration order: `IsAdd` (1), `ValueA` (W), `ValueAEffective`
(W), `ValueB` (W), `ValueC` (W), `CarryFlag` (W). -/
inductive Column : Type
  | IsAdd
  | ValueA
  | ValueAEffective
  | ValueB
  | ValueC
  | CarryFlag
deriving DecidableEq

/-- Width of each column group in field cells. -/
def Column.size : Column → Nat
  | .IsAdd => 1
  | .ValueA => WORD_SIZE
  | .ValueAEffective => WORD_SIZE
  | .ValueB => WORD_SIZE
  | .ValueC => WORD_SIZE
  | .CarryFlag => WORD_SIZE

/-- Starting cell index of each group: prefix sum of preceding widths. -/
def Column.offset : Column → Nat
  | .IsAdd => 0
  | .ValueA => 1
  | .ValueAEffective => 1 + WORD_SIZE
  | .ValueB => 1 + 2 * WORD_SIZE
  | .ValueC => 1 + 3 * WORD_SIZE
  | .CarryFlag => 1 + 4 * WORD_SIZE

/-- `Column::COLUMNS_NUM`: total number of main-trace cells per row. -/
def Column.COLUMNS_NUM : Nat := 1 + 5 * WORD_SIZE

/-- Modelled from the spec: the preprocessed schema (column.rs is not
among the sources); the spec names the `IsFirst` boundary marker. -/
inductive PreprocessedColumn : Type
  | IsFirst
deriving DecidableEq

def PreprocessedColumn.COLUMNS_NUM : Nat := 1

/-- Modelled from the spec: the program schema (column.rs is not among
the sources); eval.rs's documentation names `PrgMemoryFlag`. -/
inductive ProgramColumn : Type
  | PrgMemoryFlag
deriving DecidableEq

def ProgramColumn.COLUMNS_NUM : Nat := 1

/-!  ## Trace table (`Traces` in `src/prover/src/trace/mod.rs`) -/

/-- The trace table: `Column.COLUMNS_NUM` columns of `2^log_size` field
cells.  Cells are modelled as a total function from (flat column index,
row index) to `F`; indices outside the table read as the padding value
`0`, matching the zero-initialized storage. -/
structure Traces : Type where
  cells : Nat → Nat → F
  logSize : Nat

/-- `Traces::new`: all cells zero-initialized. -/
def Traces.new (logSize : Nat) : Traces :=
  ⟨fun _ _ => 0, logSize⟩

/-- Read one cell. -/
def Traces.getCell (t : Traces) (c r : Nat) : F :=
  t.cells c r

/-- Write one cell. -/
def Traces.setCell (t : Traces) (c r : Nat) (v : F) : Traces :=
  ⟨fun c' r' => if c' = c ∧ r' = r then v else t.cells c' r', t.logSize⟩

/-- Write `WORD_SIZE` consecutive cells of row `row` starting at the
offset of `col`, with values `v 0, v 1, v 2, v 3` (the per-limb write
loops of `fill_main_trace` and `fill_effective_columns`). -/
def Traces.writeWord (t : Traces) (row : Nat) (col : Column) (v : Nat → F) : Traces :=
  ((((t.setCell col.offset row (v 0)).setCell
      (col.offset + 1) row (v 1)).setCell
      (col.offset + 2) row (v 2)).setCell
      (col.offset + 3) row (v 3))

/-- `Traces::column::<N>`: asserts `col.size() == N`, then copies the `N`
cells of row `row` starting at `offset(col)`.  The assertion failure is
modelled as `none`. -/
def Traces.column (t : Traces) (row : Nat) (col : Column) (N : Nat) : Option (List F) :=
  if col.size = N then
    some ((List.range N).map fun i => t.getCell (col.offset + i) row)
  else
    none

/-- `Traces::fill_effective_columns` (mod.rs lines 120-142), with panics
modelled as `none` and the build flavour made explicit: `debugBuild`
enables the `debug_assert_eq!(src_len, dst_len)` size check, which is
compiled out of release builds.  The remaining checks are the
`assert_eq!` inside `column`/`column_mut` and run in every build:
`column::<WORD_SIZE>(row, src)`, `column::<1>(row, selector)`,
`column_mut::<WORD_SIZE>(row, dst)`, in that order.  If the selector
cell is zero the destination limbs are zeroed, otherwise the source
limbs are copied. -/
def Traces.fill_effective_columns (t : Traces) (row : Nat) (src dst selector : Column)
    (debugBuild : Bool) : Option Traces :=
  let src_len := src.size
  let dst_len := dst.size
  if debugBuild ∧ ¬ src_len = dst_len then none
  else
    match t.column row src WORD_SIZE, t.column row selector 1 with
    | some srcVals, some selVals =>
      if dst.size = WORD_SIZE then
        let sel := selVals.getD 0 0
        if sel = 0 then
          some (t.writeWord row dst fun _ => 0)
        else
          some (t.writeWord row dst fun i => srcVals.getD i 0)
      else none
    | _, _ => none

/-!  ## Program-step view

Modelled from the spec: `ProgramStep` lives in
`src/prover/src/trace/program.rs`, which is not among the provided
sources.  The spec's §3/§4.3 describe it as a read-only view exposing the
builtin opcode, the operand words `B` and `C` (little-endian byte limbs),
the architectural result word (absent for instructions without a
destination) and the flag `rd_is_x0`.  Words are byte arrays of length
`WORD_SIZE`, modelled as functions from limb index to byte value.
-/

/-- Modelled from the spec: builtin opcodes, a closed enumeration
including `ADD` and `ADDI`. -/
inductive BuiltinOpcode : Type
  | ADD
  | ADDI
  | SUB
  | AND
  | OR
deriving DecidableEq

/-- Modelled from the spec: the program-step view of one executed
instruction.  `opcode = none` models an instruction whose opcode is not
a builtin (`Opcode::builtin()` returning `None`); `result = none` models
an instruction without a destination result. -/
structure ProgramStep : Type where
  opcode : Option BuiltinOpcode
  valueB : Nat → Nat
  valueC : Nat → Nat
  result : Option (Nat → Nat)
  rdIsX0 : Bool

/-- The guard of `AddChip::fill_main_trace`:
`matches!(opcode.builtin(), Some(ADD) | Some(ADDI))`. -/
def ProgramStep.isAddOrAddi (s : ProgramStep) : Bool :=
  match s.opcode with
  | some .ADD => true
  | some .ADDI => true
  | _ => false

/-!  ## `AddChip` (`src/prover/src/machine2/chips/add.rs`) -/

/-- One iteration of the limb loop in `AddChip::execute` (add.rs lines
49-57): `(sum, c1) = B[i].overflowing_add(carry[i-1] as u8)` then
`(sum, c2) = sum.overflowing_add(C[i])`.  Returns the final byte together
with both overflow flags. -/
def limbAdd (b c prevCarry : Nat) : Nat × Bool × Bool :=
  let s1 := (b + prevCarry) % 256
  let c1 : Bool := decide (256 ≤ b + prevCarry)
  let s2 := (s1 + c) % 256
  let c2 : Bool := decide (256 ≤ s1 + c)
  (s2, c1, c2)

/-- The ripple-carry loop of `AddChip::execute`: limb `0` is
`B[0].overflowing_add(C[0])`, limb `i+1` runs `limbAdd` with the previous
carry and combines the two flags with `||`.  Returns `(sum_bytes[i],
carry[i])`. -/
def carrySum (B C : Nat → Nat) : Nat → Nat × Bool
  | 0 => ((B 0 + C 0) % 256, decide (256 ≤ B 0 + C 0))
  | i + 1 =>
    let prev := ((carrySum B C i).2).toNat
    let r := limbAdd (B (i + 1)) (C (i + 1)) prev
    (r.1, r.2.1 || r.2.2)

/-- `sum_bytes[i]` computed by `AddChip::execute`. -/
def sumByte (B C : Nat → Nat) (i : Nat) : Nat :=
  (carrySum B C i).1

/-- `carry[i]` computed by `AddChip::execute`. -/
def carryBit (B C : Nat → Nat) (i : Nat) : Bool :=
  (carrySum B C i).2

/-- The `ExecutionResult` returned by `AddChip::execute`: carry bits and
sum bytes widened to integers, plus the `rd_is_x0` flag. -/
structure ExecutionResult : Type where
  carry_bits : Nat → Nat
  sum_bytes : Nat → Nat
  rd_is_x0 : Bool

/-- `AddChip::execute`: recomputes the limb-wise sum with carries and
asserts that it matches the step's architectural result
(`assert_eq!(sum_bytes, result)`); the `expect`/`assert_eq!` panics are
modelled as `none`. -/
def AddChip.execute (s : ProgramStep) : Option ExecutionResult :=
  match s.result with
  | none => none
  | some result =>
    if ∀ i < WORD_SIZE, sumByte s.valueB s.valueC i = result i then
      some ⟨fun i => (carryBit s.valueB s.valueC i).toNat,
            fun i => sumByte s.valueB s.valueC i,
            s.rdIsX0⟩
    else none

/-- `AddChip::fill_main_trace` (add.rs lines 75-107): returns the trace
unchanged if the opcode is not ADD/ADDI; otherwise runs `execute` and
writes `ValueA` (sum bytes), `ValueAEffective` (zeros when `rd_is_x0`,
else the sum bytes) and `CarryFlag` (carry bits). -/
def AddChip.fill_main_trace (t : Traces) (rowIdx : Nat) (s : ProgramStep) : Option Traces :=
  if ¬ s.isAddOrAddi then some t
  else
    match AddChip.execute s with
    | none => none
    | some er =>
      let t1 := t.writeWord rowIdx .ValueA fun i => (er.sum_bytes i : F)
      let t2 := t1.writeWord rowIdx .ValueAEffective fun i =>
        if er.rd_is_x0 then 0 else (er.sum_bytes i : F)
      let t3 := t2.writeWord rowIdx .CarryFlag fun i => (er.carry_bits i : F)
      some t3

/-- The `WORD_SIZE` constraint expressions emitted by
`AddChip::add_constraints` (add.rs lines 121-134), evaluated at concrete
row values: for each limb `i`,
`is_add * (rd_val[i] + carry_flag[i] * 256 - (rs1_val[i] + rs2_val[i] + prev_carry))`
where `prev_carry` is `carry_flag[i-1]` for `i > 0` and `0` for `i = 0`
(the `i.checked_sub(1)` dance). -/
def addConstraintsEval (isAdd : F) (carryFlag rs1Val rs2Val rdVal : Nat → F) : List F :=
  (List.range WORD_SIZE).map fun i =>
    let prevCarry : F := match i with
      | 0 => 0
      | j + 1 => carryFlag j
    isAdd * (rdVal i + carryFlag i * (256 : F) - (rs1Val i + rs2Val i + prevCarry))

/-- The ADD constraints of row `row`, with the concrete cell values of
the trace substituted for the column reads (the assertion-mode
evaluator's view of `add_constraints`). -/
def rowAddConstraints (t : Traces) (row : Nat) : List F :=
  addConstraintsEval
    (t.getCell (Column.offset .IsAdd) row)
    (fun j => t.getCell (Column.offset .CarryFlag + j) row)
    (fun j => t.getCell (Column.offset .ValueB + j) row)
    (fun j => t.getCell (Column.offset .ValueC + j) row)
    (fun j => t.getCell (Column.offset .ValueA + j) row)

/-- Integer value of a little-endian word of byte limbs. -/
def wordValue (w : Nat → Nat) : Nat :=
  ∑ i ∈ Finset.range WORD_SIZE, w i * 256 ^ i

/-- Integer value of the first `k` limbs. -/
def partialValue (w : Nat → Nat) (k : Nat) : Nat :=
  ∑ i ∈ Finset.range k, w i * 256 ^ i

/-!  ## Evaluation pipeline (`get_base_column` / `circle_evaluation`)

`coset_order_to_circle_domain_order` and `bit_reverse` live in
`src/prover/src/trace/utils.rs`, which is not among the provided sources;
they are modelled from the spec's §4.7.
-/

/-- Modelled from the spec: coset order to circle-domain order: `a[0..N]`
is reinterleaved as `(a[0], a[N-1], a[1], a[N-2], ...)` — even output
positions walk from the start, odd positions from the end. -/
def cosetOrderToCircleDomainOrder (a : List F) : List F :=
  (List.range a.length).map fun j =>
    if j % 2 = 0 then a.getD (j / 2) 0
    else a.getD (a.length - 1 - j / 2) 0

/-- Reversal of the low `logSize` bits of `i`. -/
def bitRevIndex (logSize i : Nat) : Nat :=
  match logSize with
  | 0 => 0
  | k + 1 => (i % 2) * 2 ^ k + bitRevIndex k (i / 2)

/-- Modelled from the spec: the bit-reversal permutation on a list of
length `2^logSize`: index `i` moves to index `bitRevIndex logSize i`
(the permutation is an involution, so reading position `i` from
`bitRevIndex logSize i` is the same permutation). -/
def bitReversePerm (logSize : Nat) (a : List F) : List F :=
  (List.range a.length).map fun i => a.getD (bitRevIndex logSize i) 0

/-- The flat column at index `c` of the trace, as the list of its
`2^log_size` cells in row order. -/
def Traces.colList (t : Traces) (c : Nat) : List F :=
  (List.range (2 ^ t.logSize)).map fun r => t.getCell c r

/-- `Traces::get_base_column::<N>` (mod.rs lines 147-161): asserts
`col.size() == N`, then returns the `N` columns of the group, each sent
through `coset_order_to_circle_domain_order` followed by `bit_reverse`. -/
def Traces.get_base_column (t : Traces) (col : Column) (N : Nat) : Option (List (List F)) :=
  if col.size = N then
    some ((List.range N).map fun k =>
      bitReversePerm t.logSize (cosetOrderToCircleDomainOrder (t.colList (col.offset + k))))
  else none

/-- `Traces::circle_evaluation` (mod.rs lines 165-181): every flat column
of the trace sent through `coset_order_to_circle_domain_order` followed
by `bit_reverse` (the evaluation values of the returned
`CircleEvaluation`s, domain bookkeeping elided). -/
def Traces.circle_evaluation (t : Traces) : List (List F) :=
  (List.range Column.COLUMNS_NUM).map fun c =>
    bitReversePerm t.logSize (cosetOrderToCircleDomainOrder (t.colList c))

/-!  ## Row evaluator (`TraceEval::new` in `src/prover/src/trace/eval.rs`)

`EvalAtRow::next_interaction_mask` is modelled as a stateful draw from an
arbitrary mask supply: the supply maps (interaction index, consumption
position, offsets) to mask values, the state keeps one consumption
counter per interaction index and a log of the requests made, in order.
The interaction indices are stwo's `PREPROCESSED_TRACE_IDX = 0`,
`ORIGINAL_TRACE_IDX = 1` and eval.rs's `PROGRAM_TRACE_IDX = 3`.
-/

def PREPROCESSED_TRACE_IDX : Nat := 0
def ORIGINAL_TRACE_IDX : Nat := 1
def PROGRAM_TRACE_IDX : Nat := 3

/-- An arbitrary supply of interaction-mask values. -/
structure MaskStream : Type where
  mask : Nat → Nat → List Int → List F

/-- Evaluator state: per-interaction consumption counters and the log of
`next_interaction_mask` requests in the order they were made. -/
structure EvalState : Type where
  pos : Nat → Nat
  log : List (Nat × List Int)

/-- `eval.next_interaction_mask(idx, offsets)`: draws the next mask of
interaction `idx`, bumps its counter, appends the request to the log. -/
def nextInteractionMask (ms : MaskStream) (idx : Nat) (offsets : List Int)
    (st : EvalState) : List F × EvalState :=
  (ms.mask idx (st.pos idx) offsets,
   ⟨fun j => if j = idx then st.pos idx + 1 else st.pos j,
    st.log ++ [(idx, offsets)]⟩)

/-- `std::iter::repeat_with(|| eval.next_interaction_mask(idx, offsets)).take(n).collect()`:
`n` sequential draws. -/
def consumeMasks (ms : MaskStream) (idx : Nat) (offsets : List Int) :
    Nat → EvalState → List (List F) × EvalState
  | 0, st => ([], st)
  | n + 1, st =>
    let p := nextInteractionMask ms idx offsets st
    let q := consumeMasks ms idx offsets n p.2
    (p.1 :: q.1, q.2)

/-- Trace evaluation at the current and next row: the drawn masks for the
main, preprocessed and program trees. -/
structure TraceEval : Type where
  evals : List (List F)
  preprocessed_evals : List (List F)
  program_evals : List (List F)

/-- `TraceEval::new` (eval.rs lines 19-37): draws one `[0, 1]` mask pair
per main column at `ORIGINAL_TRACE_IDX`, then one `[0, 1]` pair per
preprocessed column at `PREPROCESSED_TRACE_IDX`, then one `[0]` mask per
program column at `PROGRAM_TRACE_IDX`. -/
def TraceEval.new (ms : MaskStream) (st : EvalState) : TraceEval × EvalState :=
  let a := consumeMasks ms ORIGINAL_TRACE_IDX [0, 1] Column.COLUMNS_NUM st
  let b := consumeMasks ms PREPROCESSED_TRACE_IDX [0, 1] PreprocessedColumn.COLUMNS_NUM a.2
  let c := consumeMasks ms PROGRAM_TRACE_IDX [0] ProgramColumn.COLUMNS_NUM b.2
  (⟨a.1, b.1, c.1⟩, c.2)

/-!  ## Arithmetic lemmas about the ripple-carry loop -/

lemma limbAdd_fst_lt (b c prev : Nat) : (limbAdd b c prev).1 < 256 := by
  simp only [limbAdd]
  exact Nat.mod_lt _ (by norm_num)

lemma limbAdd_not_both (b c prev : Nat) (hb : b < 256) (hc : c < 256) (hp : prev ≤ 1) :
    ¬((limbAdd b c prev).2.1 = true ∧ (limbAdd b c prev).2.2 = true) := by
  simp only [limbAdd, decide_eq_true_eq]
  rintro ⟨h1, h2⟩
  omega

lemma limbAdd_identity (b c prev : Nat) (hb : b < 256) (hc : c < 256) (hp : prev ≤ 1) :
    (limbAdd b c prev).1 + ((limbAdd b c prev).2.1 || (limbAdd b c prev).2.2).toNat * 256
      = b + c + prev := by
  by_cases h1 : 256 ≤ b + prev <;> by_cases h2 : 256 ≤ (b + prev) % 256 + c <;>
    simp [limbAdd, h1, h2] <;> omega

lemma sumByte_lt (B C : Nat → Nat) (i : Nat) : sumByte B C i < 256 := by
  cases i with
  | zero =>
    simp only [sumByte, carrySum]
    exact Nat.mod_lt _ (by norm_num)
  | succ j =>
    simp only [sumByte, carrySum]
    exact limbAdd_fst_lt _ _ _

lemma carryBit_toNat_le (B C : Nat → Nat) (i : Nat) : (carryBit B C i).toNat ≤ 1 := by
  cases h : carryBit B C i <;> simp

/-- Per-limb identity of the execute loop: the written byte plus the
written carry times 256 equals the two operand bytes plus the incoming
carry. -/
lemma limb_identity (B C : Nat → Nat) (hB : ∀ j < WORD_SIZE, B j < 256)
    (hC : ∀ j < WORD_SIZE, C j < 256) :
    ∀ i < WORD_SIZE, sumByte B C i + (carryBit B C i).toNat * 256
      = B i + C i + (match i with | 0 => 0 | j + 1 => (carryBit B C j).toNat) := by
  intro i hi
  match i with
  | 0 =>
    have hb := hB 0 (by norm_num [WORD_SIZE])
    have hc := hC 0 (by norm_num [WORD_SIZE])
    by_cases h : 256 ≤ B 0 + C 0 <;> simp [sumByte, carryBit, carrySum, h] <;> omega
  | j + 1 =>
    have hb := hB (j + 1) hi
    have hc := hC (j + 1) hi
    have hp := carryBit_toNat_le B C j
    have key := limbAdd_identity (B (j + 1)) (C (j + 1)) ((carryBit B C j).toNat) hb hc hp
    simpa [sumByte, carryBit, carrySum] using key

/-- Prefix-sum invariant of the ripple-carry loop: the integer value of
the first `i+1` sum bytes plus the outgoing carry weighted by
`256^(i+1)` equals the value of the first `i+1` limbs of `B` plus those
of `C`. -/
lemma carrySum_invariant (B C : Nat → Nat) (hB : ∀ j < WORD_SIZE, B j < 256)
    (hC : ∀ j < WORD_SIZE, C j < 256) :
    ∀ i < WORD_SIZE, partialValue (sumByte B C) (i + 1)
        + (carryBit B C i).toNat * 256 ^ (i + 1)
      = partialValue B (i + 1) + partialValue C (i + 1) := by
  intro i
  induction i with
  | zero =>
    intro _
    have h0 := limb_identity B C hB hC 0 (by norm_num [WORD_SIZE])
    simpa [partialValue] using h0
  | succ j ih =>
    intro hj
    have ihj := ih (by omega)
    have hli := limb_identity B C hB hC (j + 1) hj
    have hexp : partialValue (sumByte B C) (j + 1 + 1)
        = partialValue (sumByte B C) (j + 1) + sumByte B C (j + 1) * 256 ^ (j + 1) := by
      simp [partialValue, Finset.sum_range_succ]
    have hexpB : partialValue B (j + 1 + 1)
        = partialValue B (j + 1) + B (j + 1) * 256 ^ (j + 1) := by
      simp [partialValue, Finset.sum_range_succ]
    have hexpC : partialValue C (j + 1 + 1)
        = partialValue C (j + 1) + C (j + 1) * 256 ^ (j + 1) := by
      simp [partialValue, Finset.sum_range_succ]
    have hpow : (256 : Nat) ^ (j + 1 + 1) = 256 ^ (j + 1) * 256 := by
      rw [pow_succ]
    rw [hexp, hexpB, hexpC, hpow]
    calc partialValue (sumByte B C) (j + 1) + sumByte B C (j + 1) * 256 ^ (j + 1)
          + (carryBit B C (j + 1)).toNat * (256 ^ (j + 1) * 256)
        = partialValue (sumByte B C) (j + 1)
            + (sumByte B C (j + 1) + (carryBit B C (j + 1)).toNat * 256) * 256 ^ (j + 1) := by
          ring
      _ = partialValue (sumByte B C) (j + 1)
            + (B (j + 1) + C (j + 1) + (carryBit B C j).toNat) * 256 ^ (j + 1) := by
          rw [hli]
      _ = (partialValue (sumByte B C) (j + 1) + (carryBit B C j).toNat * 256 ^ (j + 1))
            + (B (j + 1) + C (j + 1)) * 256 ^ (j + 1) := by
          ring
      _ = (partialValue B (j + 1) + partialValue C (j + 1))
            + (B (j + 1) + C (j + 1)) * 256 ^ (j + 1) := by
          rw [ihj]
      _ = partialValue B (j + 1) + B (j + 1) * 256 ^ (j + 1)
            + (partialValue C (j + 1) + C (j + 1) * 256 ^ (j + 1)) := by
          ring

lemma partialValue_lt (w : Nat → Nat) (h : ∀ j < WORD_SIZE, w j < 256) :
    partialValue w WORD_SIZE < 2 ^ 32 := by
  have h0 := h 0 (by norm_num [WORD_SIZE])
  have h1 := h 1 (by norm_num [WORD_SIZE])
  have h2 := h 2 (by norm_num [WORD_SIZE])
  have h3 := h 3 (by norm_num [WORD_SIZE])
  norm_num [partialValue, WORD_SIZE, Finset.sum_range_succ]
  omega

/-- The four sum bytes are the base-256 decomposition of
`(B + C) mod 2^32`. -/
lemma sum_decomposition (B C : Nat → Nat) (hB : ∀ j < WORD_SIZE, B j < 256)
    (hC : ∀ j < WORD_SIZE, C j < 256) :
    partialValue (sumByte B C) WORD_SIZE = (wordValue B + wordValue C) % 2 ^ 32 := by
  have hinv := carrySum_invariant B C hB hC 3 (by norm_num [WORD_SIZE])
  have hlt : partialValue (sumByte B C) WORD_SIZE < 2 ^ 32 :=
    partialValue_lt _ (fun j _ => sumByte_lt B C j)
  have hcb := carryBit_toNat_le B C 3
  have h4 : (3 : Nat) + 1 = WORD_SIZE := by norm_num [WORD_SIZE]
  rw [h4] at hinv
  have hwB : partialValue B WORD_SIZE = wordValue B := rfl
  have hwC : partialValue C WORD_SIZE = wordValue C := rfl
  rw [hwB, hwC] at hinv
  have hpow : (256 : Nat) ^ WORD_SIZE = 2 ^ 32 := by norm_num [WORD_SIZE]
  rw [hpow] at hinv
  omega

/-- The final carry bit is set exactly when the integer sum overflows
`2^32`. -/
lemma carry_overflow (B C : Nat → Nat) (hB : ∀ j < WORD_SIZE, B j < 256)
    (hC : ∀ j < WORD_SIZE, C j < 256) :
    carryBit B C 3 = true ↔ 2 ^ 32 ≤ wordValue B + wordValue C := by
  have hinv := carrySum_invariant B C hB hC 3 (by norm_num [WORD_SIZE])
  have hlt : partialValue (sumByte B C) WORD_SIZE < 2 ^ 32 :=
    partialValue_lt _ (fun j _ => sumByte_lt B C j)
  have h4 : (3 : Nat) + 1 = WORD_SIZE := by norm_num [WORD_SIZE]
  rw [h4] at hinv
  have hwB : partialValue B WORD_SIZE = wordValue B := rfl
  have hwC : partialValue C WORD_SIZE = wordValue C := rfl
  rw [hwB, hwC] at hinv
  have hpow : (256 : Nat) ^ WORD_SIZE = 2 ^ 32 := by norm_num [WORD_SIZE]
  rw [hpow] at hinv
  cases h : carryBit B C 3 <;> rw [h] at hinv <;> simp at hinv ⊢ <;> omega

/-- Reading digit `i` back out of the value of a word of bytes. -/
lemma digit_of_partialValue (w : Nat → Nat) (h : ∀ j < WORD_SIZE, w j < 256) :
    ∀ i < WORD_SIZE, w i = partialValue w WORD_SIZE / 256 ^ i % 256 := by
  have h0 := h 0 (by norm_num [WORD_SIZE])
  have h1 := h 1 (by norm_num [WORD_SIZE])
  have h2 := h 2 (by norm_num [WORD_SIZE])
  have h3 := h 3 (by norm_num [WORD_SIZE])
  intro i hi
  have hi4 : i < 4 := by simpa [WORD_SIZE] using hi
  interval_cases i <;> norm_num [partialValue, WORD_SIZE, Finset.sum_range_succ] <;> omega

/-- Each sum byte is the corresponding byte limb of
`(B + C) mod 2^32`. -/
lemma sumByte_eq_digit (B C : Nat → Nat) (hB : ∀ j < WORD_SIZE, B j < 256)
    (hC : ∀ j < WORD_SIZE, C j < 256) :
    ∀ i < WORD_SIZE,
      sumByte B C i = (wordValue B + wordValue C) % 2 ^ 32 / 256 ^ i % 256 := by
  intro i hi
  have := digit_of_partialValue (sumByte B C) (fun j _ => sumByte_lt B C j) i hi
  rw [sum_decomposition B C hB hC] at this
  exact this

/-!  ## Behaviour of `execute` and `fill_main_trace` -/

/-- When the step's result word is the byte decomposition of
`(B + C) mod 2^32`, the `assert_eq!` in `execute` passes and `execute`
returns the recomputed sum bytes and carry bits. -/
lemma execute_some (s : ProgramStep) (hB : ∀ j < WORD_SIZE, s.valueB j < 256)
    (hC : ∀ j < WORD_SIZE, s.valueC j < 256) (r : Nat → Nat) (hr : s.result = some r)
    (hri : ∀ i < WORD_SIZE,
      r i = (wordValue s.valueB + wordValue s.valueC) % 2 ^ 32 / 256 ^ i % 256) :
    AddChip.execute s =
      some ⟨fun i => (carryBit s.valueB s.valueC i).toNat,
            fun i => sumByte s.valueB s.valueC i, s.rdIsX0⟩ := by
  have hmatch : ∀ i < WORD_SIZE, sumByte s.valueB s.valueC i = r i := by
    intro i hi
    rw [hri i hi]
    exact sumByte_eq_digit _ _ hB hC i hi
  simp only [AddChip.execute, hr]
  rw [if_pos hmatch]

/-- Unfolding of `fill_main_trace` on an ADD/ADDI step whose `execute`
succeeds: the three word writes, in program order. -/
lemma fill_main_trace_some (t : Traces) (row : Nat) (s : ProgramStep) (er : ExecutionResult)
    (hop : s.isAddOrAddi = true) (hex : AddChip.execute s = some er) :
    AddChip.fill_main_trace t row s =
      some (((t.writeWord row .ValueA fun i => (er.sum_bytes i : F)).writeWord row
          .ValueAEffective fun i => if er.rd_is_x0 then 0 else (er.sum_bytes i : F)).writeWord row
          .CarryFlag fun i => (er.carry_bits i : F)) := by
  simp [AddChip.fill_main_trace, hop, hex]

/-!  ## Claim theorems -/

/-- Claim C1: for every ADD/ADDI program step whose operand words `B`
and `C` have byte limbs in `[0, 255]`, whose result word equals
`(B + C) mod 2^32`, and with `rd_is_x0 = false`: after
`AddChip::fill_main_trace` fills row `row` (with the CPU chip having set
`IsAdd[row] = 1` and the `ValueB`/`ValueC` cells to the operand limbs),
each of the `WORD_SIZE` constraints emitted by
`AddChip::add_constraints` evaluates to zero when the concrete values of
row `row` are substituted. -/
theorem add_constraints_vanish_on_filled_row
    (t : Traces) (row : Nat) (s : ProgramStep)
    (hop : s.isAddOrAddi = true)
    (hB : ∀ j < WORD_SIZE, s.valueB j < 256)
    (hC : ∀ j < WORD_SIZE, s.valueC j < 256)
    (r : Nat → Nat) (hr : s.result = some r)
    (hri : ∀ i < WORD_SIZE,
      r i = (wordValue s.valueB + wordValue s.valueC) % 2 ^ 32 / 256 ^ i % 256)
    (hx0 : s.rdIsX0 = false)
    (hIsAdd : t.getCell (Column.offset .IsAdd) row = 1)
    (hvb : ∀ i < WORD_SIZE, t.getCell (Column.offset .ValueB + i) row = (s.valueB i : F))
    (hvc : ∀ i < WORD_SIZE, t.getCell (Column.offset .ValueC + i) row = (s.valueC i : F))
    (t' : Traces) (hfill : AddChip.fill_main_trace t row s = some t') :
    ∀ x ∈ rowAddConstraints t' row, x = 0 := by
  have hex := execute_some s hB hC r hr hri
  rw [fill_main_trace_some t row s _ hop hex] at hfill
  obtain rfl := Option.some.inj hfill
  have key := limb_identity s.valueB s.valueC hB hC
  have k0 : sumByte s.valueB s.valueC 0 + (carryBit s.valueB s.valueC 0).toNat * 256
      = s.valueB 0 + s.valueC 0 := by
    simpa using key 0 (by norm_num [WORD_SIZE])
  have k1 : sumByte s.valueB s.valueC 1 + (carryBit s.valueB s.valueC 1).toNat * 256
      = s.valueB 1 + s.valueC 1 + (carryBit s.valueB s.valueC 0).toNat :=
    key 1 (by norm_num [WORD_SIZE])
  have k2 : sumByte s.valueB s.valueC 2 + (carryBit s.valueB s.valueC 2).toNat * 256
      = s.valueB 2 + s.valueC 2 + (carryBit s.valueB s.valueC 1).toNat :=
    key 2 (by norm_num [WORD_SIZE])
  have k3 : sumByte s.valueB s.valueC 3 + (carryBit s.valueB s.valueC 3).toNat * 256
      = s.valueB 3 + s.valueC 3 + (carryBit s.valueB s.valueC 2).toNat :=
    key 3 (by norm_num [WORD_SIZE])
  have f0 : (sumByte s.valueB s.valueC 0 : F)
        + ((carryBit s.valueB s.valueC 0).toNat : F) * 256
      = (s.valueB 0 : F) + (s.valueC 0 : F) := by
    have h := congrArg (fun n : Nat => (n : F)) k0
    push_cast at h
    linear_combination h
  have f1 : (sumByte s.valueB s.valueC 1 : F)
        + ((carryBit s.valueB s.valueC 1).toNat : F) * 256
      = (s.valueB 1 : F) + (s.valueC 1 : F)
        + ((carryBit s.valueB s.valueC 0).toNat : F) := by
    have h := congrArg (fun n : Nat => (n : F)) k1
    push_cast at h
    linear_combination h
  have f2 : (sumByte s.valueB s.valueC 2 : F)
        + ((carryBit s.valueB s.valueC 2).toNat : F) * 256
      = (s.valueB 2 : F) + (s.valueC 2 : F)
        + ((carryBit s.valueB s.valueC 1).toNat : F) := by
    have h := congrArg (fun n : Nat => (n : F)) k2
    push_cast at h
    linear_combination h
  have f3 : (sumByte s.valueB s.valueC 3 : F)
        + ((carryBit s.valueB s.valueC 3).toNat : F) * 256
      = (s.valueB 3 : F) + (s.valueC 3 : F)
        + ((carryBit s.valueB s.valueC 2).toNat : F) := by
    have h := congrArg (fun n : Nat => (n : F)) k3
    push_cast at h
    linear_combination h
  norm_num [Column.offset, WORD_SIZE, Traces.getCell] at hIsAdd hvb hvc
  have hb0 := hvb 0 (by norm_num); have hb1 := hvb 1 (by norm_num)
  have hb2 := hvb 2 (by norm_num); have hb3 := hvb 3 (by norm_num)
  have hc0 := hvc 0 (by norm_num); have hc1 := hvc 1 (by norm_num)
  have hc2 := hvc 2 (by norm_num); have hc3 := hvc 3 (by norm_num)
  norm_num at hb0 hb1 hb2 hb3 hc0 hc1 hc2 hc3
  intro x hx
  simp only [rowAddConstraints, addConstraintsEval, WORD_SIZE, List.mem_map,
    List.mem_range] at hx
  obtain ⟨i, hi, rfl⟩ := hx
  interval_cases i <;>
    norm_num [Traces.writeWord, Traces.setCell, Traces.getCell, Column.offset, WORD_SIZE,
      hx0] <;>
    simp only [hIsAdd, hb0, hb1, hb2, hb3, hc0, hc1, hc2, hc3, one_mul] <;>
    [linear_combination f0; linear_combination f1; linear_combination f2; linear_combination f3]

/-- Claim C2: for every ADD/ADDI step with operand byte limbs in
`[0, 255]` whose result word is the little-endian byte decomposition of
`(B + C) mod 2^32`, `AddChip::fill_main_trace` writes `ValueA[row]`
equal to the byte limbs of `(B + C) mod 2^32`, and
`CarryFlag[row, WORD_SIZE - 1] = 1` iff `B + C ≥ 2^32`. -/
theorem fill_main_trace_sum_and_overflow
    (t : Traces) (row : Nat) (s : ProgramStep)
    (hop : s.isAddOrAddi = true)
    (hB : ∀ j < WORD_SIZE, s.valueB j < 256)
    (hC : ∀ j < WORD_SIZE, s.valueC j < 256)
    (r : Nat → Nat) (hr : s.result = some r)
    (hri : ∀ i < WORD_SIZE,
      r i = (wordValue s.valueB + wordValue s.valueC) % 2 ^ 32 / 256 ^ i % 256)
    (t' : Traces) (hfill : AddChip.fill_main_trace t row s = some t') :
    (∀ i < WORD_SIZE, t'.getCell (Column.offset .ValueA + i) row
        = (((wordValue s.valueB + wordValue s.valueC) % 2 ^ 32 / 256 ^ i % 256 : Nat) : F))
    ∧ (t'.getCell (Column.offset .CarryFlag + (WORD_SIZE - 1)) row = 1
        ↔ 2 ^ 32 ≤ wordValue s.valueB + wordValue s.valueC) := by
  have hex := execute_some s hB hC r hr hri
  rw [fill_main_trace_some t row s _ hop hex] at hfill
  obtain rfl := Option.some.inj hfill
  constructor
  · intro i hi
    have hdig := sumByte_eq_digit s.valueB s.valueC hB hC i hi
    rw [← hdig]
    have hi4 : i < 4 := by simpa [WORD_SIZE] using hi
    interval_cases i <;>
      norm_num [Traces.writeWord, Traces.setCell, Traces.getCell, Column.offset, WORD_SIZE]
  · have hov := carry_overflow s.valueB s.valueC hB hC
    have hcell : (((t.writeWord row .ValueA fun i => (sumByte s.valueB s.valueC i : F)).writeWord
        row .ValueAEffective fun i =>
          if s.rdIsX0 then 0 else (sumByte s.valueB s.valueC i : F)).writeWord
        row .CarryFlag fun i => ((carryBit s.valueB s.valueC i).toNat : F)).getCell
          (Column.offset .CarryFlag + (WORD_SIZE - 1)) row
        = ((carryBit s.valueB s.valueC 3).toNat : F) := by
      norm_num [Traces.writeWord, Traces.setCell, Traces.getCell, Column.offset, WORD_SIZE]
    rw [hcell]
    rw [← hov]
    cases h : carryBit s.valueB s.valueC 3
    · simp [h]
      decide
    · simp [h]

/-- Claim C3: a row whose `IsAdd` cell is zero passes every constraint
emitted by `AddChip::add_constraints`, whatever the `ValueA`, `ValueB`,
`ValueC` and `CarryFlag` cells of that row hold (each emitted constraint
is the `IsAdd` expression times another expression). -/
theorem add_constraints_vanish_when_not_add (t : Traces) (row : Nat)
    (h : t.getCell (Column.offset .IsAdd) row = 0) :
    ∀ x ∈ rowAddConstraints t row, x = 0 := by
  intro x hx
  simp only [rowAddConstraints, addConstraintsEval, List.mem_map, List.mem_range] at hx
  obtain ⟨i, hi, rfl⟩ := hx
  simp [h]

/-- Claim C4: for every ADD/ADDI step with `rd_is_x0 = true` whose
result word matches the limb-wise sum, after `AddChip::fill_main_trace`
all `WORD_SIZE` cells of `ValueAEffective[row]` are the field zero while
`ValueA[row]` still holds the computed sum limbs. -/
theorem fill_main_trace_x0_effective_zero
    (t : Traces) (row : Nat) (s : ProgramStep)
    (hop : s.isAddOrAddi = true)
    (hB : ∀ j < WORD_SIZE, s.valueB j < 256)
    (hC : ∀ j < WORD_SIZE, s.valueC j < 256)
    (r : Nat → Nat) (hr : s.result = some r)
    (hri : ∀ i < WORD_SIZE,
      r i = (wordValue s.valueB + wordValue s.valueC) % 2 ^ 32 / 256 ^ i % 256)
    (hx0 : s.rdIsX0 = true)
    (t' : Traces) (hfill : AddChip.fill_main_trace t row s = some t') :
    ∀ i < WORD_SIZE, t'.getCell (Column.offset .ValueAEffective + i) row = 0
      ∧ t'.getCell (Column.offset .ValueA + i) row = ((sumByte s.valueB s.valueC i : Nat) : F) := by
  have hex := execute_some s hB hC r hr hri
  rw [fill_main_trace_some t row s _ hop hex] at hfill
  obtain rfl := Option.some.inj hfill
  intro i hi
  have hi4 : i < 4 := by simpa [WORD_SIZE] using hi
  interval_cases i <;>
    norm_num [Traces.writeWord, Traces.setCell, Traces.getCell, Column.offset, WORD_SIZE, hx0]

/-- Claim C5: in the per-limb loop of `AddChip::execute`, for all
operand words of bytes and every limb index `i` in `1..WORD_SIZE`, the
overflow flag of `B[i] + carry[i-1]` and the overflow flag of the
subsequent `+ C[i]` are never both set. -/
theorem execute_loop_at_most_one_carry (B C : Nat → Nat)
    (hB : ∀ j < WORD_SIZE, B j < 256) (hC : ∀ j < WORD_SIZE, C j < 256)
    (i : Nat) (_h1 : 1 ≤ i) (h2 : i < WORD_SIZE) :
    ¬((limbAdd (B i) (C i) ((carryBit B C (i - 1)).toNat)).2.1 = true
      ∧ (limbAdd (B i) (C i) ((carryBit B C (i - 1)).toNat)).2.2 = true) :=
  limbAdd_not_both _ _ _ (hB i h2) (hC i h2) (carryBit_toNat_le B C (i - 1))

/-- Claim C7: for every program step whose opcode is neither ADD nor
ADDI, `AddChip::fill_main_trace` returns the trace unchanged: every cell
of every column at every row keeps its value. -/
theorem fill_main_trace_frame (t : Traces) (row : Nat) (s : ProgramStep)
    (hop : s.isAddOrAddi = false) :
    AddChip.fill_main_trace t row s = some t ∧
      ∀ t', AddChip.fill_main_trace t row s = some t' →
        ∀ c r, t'.getCell c r = t.getCell c r := by
  have hmain : AddChip.fill_main_trace t row s = some t := by
    simp [AddChip.fill_main_trace, hop]
  refine ⟨hmain, fun t' h c r => ?_⟩
  rw [hmain] at h
  obtain rfl := Option.some.inj h
  rfl

/-- Claim C6: after a successful
`Traces::fill_effective_columns(row, src, dst, sel)`, if the selector
cell `sel[row]` is zero then the `dst` column cells of `row` are all
field zeros, otherwise they equal the `src` column cells cell-for-cell. -/
theorem fill_effective_columns_selector (t : Traces) (row : Nat)
    (src dst sel : Column) (d : Bool) (t' : Traces)
    (hfill : t.fill_effective_columns row src dst sel d = some t') :
    (t.getCell (Column.offset sel) row = 0 →
      ∀ i < WORD_SIZE, t'.getCell (Column.offset dst + i) row = 0)
    ∧ (t.getCell (Column.offset sel) row ≠ 0 →
      ∀ i < WORD_SIZE, t'.getCell (Column.offset dst + i) row
        = t.getCell (Column.offset src + i) row) := by
  unfold Traces.fill_effective_columns Traces.column at hfill
  dsimp only at hfill
  by_cases hdb : d = true ∧ ¬src.size = dst.size
  · rw [if_pos hdb] at hfill; cases hfill
  rw [if_neg hdb] at hfill
  by_cases h1 : src.size = WORD_SIZE
  case neg => rw [if_neg h1] at hfill; simp at hfill
  rw [if_pos h1] at hfill
  by_cases h2 : sel.size = 1
  case neg => rw [if_neg h2] at hfill; simp at hfill
  rw [if_pos h2] at hfill
  dsimp only at hfill
  by_cases h3 : dst.size = WORD_SIZE
  case neg => rw [if_neg h3] at hfill; cases hfill
  rw [if_pos h3] at hfill
  simp only [List.range_succ, List.range_zero, List.nil_append, List.map_cons,
    List.map_nil, List.getD_cons_zero, Nat.add_zero] at hfill
  by_cases hsel : t.getCell sel.offset row = 0
  · rw [if_pos hsel] at hfill
    obtain rfl := Option.some.inj hfill
    constructor
    · intro _ i hi
      have hi4 : i < 4 := by simpa [WORD_SIZE] using hi
      interval_cases i <;>
        simp [Traces.writeWord, Traces.setCell, Traces.getCell]
    · intro hne
      exact absurd hsel hne
  · rw [if_neg hsel] at hfill
    obtain rfl := Option.some.inj hfill
    constructor
    · intro hz
      exact absurd hz hsel
    · intro _ i hi
      have hi4 : i < 4 := by simpa [WORD_SIZE] using hi
      interval_cases i <;>
        simp [Traces.writeWord, Traces.setCell, Traces.getCell, WORD_SIZE,
          List.range_succ]

/-- Claim C10: `Traces::fill_effective_columns` succeeds exactly when
`src` and `dst` both have width `WORD_SIZE = 4` and `sel` has width `1`;
any other widths fail a `column`/`column_mut` size assertion in debug
and release builds alike (including calls where `src` and `dst` have
equal widths), while the `src`-width-equals-`dst`-width
`debug_assert_eq!` — modelled by the `debugBuild` flag — is the only
check absent from release builds. -/
theorem fill_effective_columns_size_assertions (t : Traces) (row : Nat)
    (src dst sel : Column) (d : Bool) :
    (t.fill_effective_columns row src dst sel d).isSome
      ↔ src.size = WORD_SIZE ∧ dst.size = WORD_SIZE ∧ sel.size = 1 := by
  cases d <;> cases src <;> cases dst <;> cases sel <;>
    simp [Traces.fill_effective_columns, Traces.column, Column.size, WORD_SIZE] <;>
    split <;> simp

/-- The request log of `n` repeated draws at one interaction index. -/
lemma consumeMasks_log (ms : MaskStream) (idx : Nat) (offsets : List Int) :
    ∀ (n : Nat) (st : EvalState),
      (consumeMasks ms idx offsets n st).2.log = st.log ++ List.replicate n (idx, offsets) := by
  intro n
  induction n with
  | zero => intro st; simp [consumeMasks]
  | succ m ih =>
    intro st
    simp only [consumeMasks, nextInteractionMask]
    rw [ih]
    simp [List.replicate_succ]

/-- Claim C8: `TraceEval::new` consumes interaction masks in exactly the
deterministic order: one `(current, next)` mask pair per main column at
`ORIGINAL_TRACE_IDX`, then one pair per preprocessed column at
`PREPROCESSED_TRACE_IDX`, then one current-row mask per program column at
`PROGRAM_TRACE_IDX` — independently of the mask supply and of the
evaluator's prior counters, so two constructions over the same schema
consume masks in the same order. -/
theorem trace_eval_new_mask_order (ms ms2 : MaskStream) (st st2 : EvalState) :
    (TraceEval.new ms st).2.log = st.log
        ++ (List.replicate Column.COLUMNS_NUM (ORIGINAL_TRACE_IDX, ([0, 1] : List Int))
          ++ (List.replicate PreprocessedColumn.COLUMNS_NUM
                (PREPROCESSED_TRACE_IDX, ([0, 1] : List Int))
            ++ List.replicate ProgramColumn.COLUMNS_NUM (PROGRAM_TRACE_IDX, ([0] : List Int))))
      ∧ (TraceEval.new ms st).2.log.drop st.log.length
        = (TraceEval.new ms2 st2).2.log.drop st2.log.length := by
  have main : ∀ (m : MaskStream) (s : EvalState),
      (TraceEval.new m s).2.log = s.log
        ++ (List.replicate Column.COLUMNS_NUM (ORIGINAL_TRACE_IDX, ([0, 1] : List Int))
          ++ (List.replicate PreprocessedColumn.COLUMNS_NUM
                (PREPROCESSED_TRACE_IDX, ([0, 1] : List Int))
            ++ List.replicate ProgramColumn.COLUMNS_NUM
                (PROGRAM_TRACE_IDX, ([0] : List Int)))) := by
    intro m s
    simp only [TraceEval.new]
    rw [consumeMasks_log, consumeMasks_log, consumeMasks_log]
    simp [List.append_assoc]
  refine ⟨main ms st, ?_⟩
  rw [main ms st, main ms2 st2, List.drop_left, List.drop_left]

/-- Bound `offset + size ≤ COLUMNS_NUM` for every main column group. -/
lemma Column.offset_add_size_le (c : Column) :
    c.offset + c.size ≤ Column.COLUMNS_NUM := by
  cases c <;> decide

/-- `getD` of a map over `List.range`. -/
lemma getD_map_range (f : Nat → List F) (n k : Nat) (hk : k < n) :
    ((List.range n).map f).getD k [] = f k := by
  rw [List.getD_eq_getElem?_getD, List.getElem?_map, List.getElem?_range hk]
  rfl

/-- Claim C9: for every trace and main column group, the base-column
form from `Traces::get_base_column` and the corresponding column of
`Traces::circle_evaluation` contain the same field elements in the same
positions: both apply the coset-order-to-circle-domain reordering
followed by bit reversal to the same underlying column. -/
theorem get_base_column_agrees_with_circle_evaluation
    (t : Traces) (col : Column) (N : Nat) (hN : col.size = N) (k : Nat) (hk : k < N)
    (cols : List (List F)) (hbc : t.get_base_column col N = some cols) :
    cols.getD k [] = t.circle_evaluation.getD (col.offset + k) [] := by
  unfold Traces.get_base_column at hbc
  rw [if_pos hN] at hbc
  obtain rfl := Option.some.inj hbc
  unfold Traces.circle_evaluation
  have hlt : col.offset + k < Column.COLUMNS_NUM := by
    have := Column.offset_add_size_le col
    omega
  rw [getD_map_range _ _ _ hk, getD_map_range _ _ _ hlt]

/-!  ## Concrete witnesses -/

/-- An `ADDI` step computing `250 + 10 = 260 = [4, 1, 0, 0]`. -/
def witStep : ProgramStep :=
  ⟨some .ADDI, fun i => if i = 0 then 250 else 0, fun i => if i = 0 then 10 else 0,
   some fun i => if i = 0 then 4 else if i = 1 then 1 else 0, false⟩

/-- A trace whose row 0 has `IsAdd = 1`, `ValueB = [250, 0, 0, 0]` and
`ValueC = [10, 0, 0, 0]`. -/
def witTrace : Traces :=
  (((Traces.new 4).setCell 0 0 1).setCell 9 0 (250 : F)).setCell 13 0 (10 : F)

/-- The trace after the ADD chip fills row 0 of `witTrace`. -/
def witFilled : Traces :=
  match AddChip.fill_main_trace witTrace 0 witStep with
  | some u => u
  | none => Traces.new 4

/-- Witness for C1: on the concrete `250 + 10` row all four emitted
constraints evaluate to zero. -/
theorem add_constraints_vanish_on_filled_row_witness :
    (rowAddConstraints witFilled 0).getD 0 1 = 0
      ∧ (rowAddConstraints witFilled 0).getD 1 1 = 0
      ∧ (rowAddConstraints witFilled 0).getD 2 1 = 0
      ∧ (rowAddConstraints witFilled 0).getD 3 1 = 0 := by
  have h := add_constraints_vanish_on_filled_row witTrace 0 witStep (by decide) (by decide)
    (by decide) (fun i => if i = 0 then 4 else if i = 1 then 1 else 0) rfl (by decide) rfl
    (by decide) (by decide) (by decide) witFilled rfl
  exact ⟨h _ (by decide), h _ (by decide), h _ (by decide), h _ (by decide)⟩

/-- An `ADD` step computing `0xFFFFFFFF + 1`, the full-word overflow. -/
def witStep2 : ProgramStep :=
  ⟨some .ADD, fun _ => 255, fun i => if i = 0 then 1 else 0, some fun _ => 0, false⟩

/-- The trace after the ADD chip fills row 0 with the overflow step. -/
def witFilled2 : Traces :=
  match AddChip.fill_main_trace (Traces.new 4) 0 witStep2 with
  | some u => u
  | none => Traces.new 4

/-- Witness for C2: `ValueA` holds the bytes of `(2^32) mod 2^32 = 0`
and the top carry flag is set. -/
theorem fill_main_trace_sum_and_overflow_witness :
    (∀ i < WORD_SIZE, witFilled2.getCell (Column.offset .ValueA + i) 0
        = (((wordValue witStep2.valueB + wordValue witStep2.valueC) % 2 ^ 32 / 256 ^ i % 256
            : Nat) : F))
    ∧ (witFilled2.getCell (Column.offset .CarryFlag + (WORD_SIZE - 1)) 0 = 1
        ↔ 2 ^ 32 ≤ wordValue witStep2.valueB + wordValue witStep2.valueC) :=
  fill_main_trace_sum_and_overflow (Traces.new 4) 0 witStep2 (by decide) (by decide)
    (by decide) (fun _ => 0) rfl (by decide) witFilled2 rfl

/-- Witness for C3: the all-zero row (so `IsAdd = 0`) passes all four
constraints. -/
theorem add_constraints_vanish_when_not_add_witness :
    (rowAddConstraints (Traces.new 4) 0).getD 0 1 = 0
      ∧ (rowAddConstraints (Traces.new 4) 0).getD 1 1 = 0
      ∧ (rowAddConstraints (Traces.new 4) 0).getD 2 1 = 0
      ∧ (rowAddConstraints (Traces.new 4) 0).getD 3 1 = 0 := by
  have h := add_constraints_vanish_when_not_add (Traces.new 4) 0 (by decide)
  exact ⟨h _ (by decide), h _ (by decide), h _ (by decide), h _ (by decide)⟩

/-- An `ADD` step writing `1 + 1 = 2` into the zero register. -/
def witStep3 : ProgramStep :=
  ⟨some .ADD, fun i => if i = 0 then 1 else 0, fun i => if i = 0 then 1 else 0,
   some fun i => if i = 0 then 2 else 0, true⟩

/-- The trace after the ADD chip fills row 0 with the `x0` step. -/
def witFilled3 : Traces :=
  match AddChip.fill_main_trace (Traces.new 4) 0 witStep3 with
  | some u => u
  | none => Traces.new 4

/-- Witness for C4: with destination `x0`, `ValueAEffective` is all
zeros while `ValueA` holds the computed sum limbs (shown at limbs 0 and
3). -/
theorem fill_main_trace_x0_effective_zero_witness :
    (witFilled3.getCell (Column.offset .ValueAEffective + 0) 0 = 0
      ∧ witFilled3.getCell (Column.offset .ValueA + 0) 0
        = ((sumByte witStep3.valueB witStep3.valueC 0 : Nat) : F))
    ∧ (witFilled3.getCell (Column.offset .ValueAEffective + 3) 0 = 0
      ∧ witFilled3.getCell (Column.offset .ValueA + 3) 0
        = ((sumByte witStep3.valueB witStep3.valueC 3 : Nat) : F)) := by
  have h := fill_main_trace_x0_effective_zero (Traces.new 4) 0 witStep3 (by decide) (by decide)
    (by decide) (fun i => if i = 0 then 2 else 0) rfl (by decide) rfl witFilled3 rfl
  exact ⟨h 0 (by decide), h 3 (by decide)⟩

/-- Witness for C5: at limb 1 of `0xFFFFFFFF + 0xFFFFFFFF` the two
overflow flags are not both set. -/
theorem execute_loop_at_most_one_carry_witness :
    ¬((limbAdd 255 255 ((carryBit (fun _ => 255) (fun _ => 255) 0).toNat)).2.1 = true
      ∧ (limbAdd 255 255 ((carryBit (fun _ => 255) (fun _ => 255) 0).toNat)).2.2 = true) :=
  execute_loop_at_most_one_carry (fun _ => 255) (fun _ => 255) (by decide) (by decide)
    1 (by decide) (by decide)

/-- A trace with a set selector cell (`IsAdd = 1`) and `ValueA` holding
`7` in its first limb. -/
def witTraceSel : Traces :=
  ((Traces.new 4).setCell 0 0 1).setCell 1 0 (7 : F)

/-- The trace after `fill_effective_columns(0, ValueA, ValueAEffective,
IsAdd)` in a debug build. -/
def witEffFilled : Traces :=
  match witTraceSel.fill_effective_columns 0 .ValueA .ValueAEffective .IsAdd true with
  | some u => u
  | none => Traces.new 4

/-- Witness for C6: with a non-zero selector the destination equals the
source cell-for-cell. -/
theorem fill_effective_columns_selector_witness :
    (witTraceSel.getCell (Column.offset .IsAdd) 0 = 0 →
      ∀ i < WORD_SIZE, witEffFilled.getCell (Column.offset .ValueAEffective + i) 0 = 0)
    ∧ (witTraceSel.getCell (Column.offset .IsAdd) 0 ≠ 0 →
      ∀ i < WORD_SIZE, witEffFilled.getCell (Column.offset .ValueAEffective + i) 0
        = witTraceSel.getCell (Column.offset .ValueA + i) 0) :=
  fill_effective_columns_selector witTraceSel 0 .ValueA .ValueAEffective .IsAdd true
    witEffFilled rfl

/-- A `SUB` step, which the ADD chip does not own. -/
def witStepSub : ProgramStep :=
  ⟨some .SUB, fun _ => 0, fun _ => 0, none, false⟩

/-- Witness for C7: on a SUB step the ADD chip returns the trace
unchanged. -/
theorem fill_main_trace_frame_witness :
    AddChip.fill_main_trace (Traces.new 4) 0 witStepSub = some (Traces.new 4) ∧
      ∀ t', AddChip.fill_main_trace (Traces.new 4) 0 witStepSub = some t' →
        ∀ c r, t'.getCell c r = (Traces.new 4).getCell c r :=
  fill_main_trace_frame (Traces.new 4) 0 witStepSub rfl

/-- The base-column form of the `ValueA` group of a fresh trace. -/
def witBase : List (List F) :=
  match (Traces.new 4).get_base_column .ValueA WORD_SIZE with
  | some u => u
  | none => []

/-- Witness for C9: limb 0 of the `ValueA` base-column form equals
column `offset(ValueA) + 0` of the circle-evaluation form. -/
theorem get_base_column_agrees_with_circle_evaluation_witness :
    witBase.getD 0 [] = (Traces.new 4).circle_evaluation.getD (Column.offset .ValueA + 0) [] :=
  get_base_column_agrees_with_circle_evaluation (Traces.new 4) .ValueA WORD_SIZE rfl 0
    (by decide) witBase rfl

end NexusZkvm
